import Mathlib

/-!
Verification development for the TorrentView metadata-resolution and
acquisition-orchestration subsystem.

The development shallowly embeds the core of
`src/app/api/v2/torrents/files/route.ts` (bencode hashing, file-tree
construction, magnet resolution control flow) and
`src/app/api/v2/torrents/add/route.ts` (the acquisition orchestration)
as executable Lean definitions, and proves or refutes the specified
properties about them.
-/

namespace TorrentView

/-! ### A model of the JavaScript values manipulated by the file-tree helpers.

The helpers `buildV1FileTree`, `buildV2FileTree` and `flattenV2FileTree`
work on plain JavaScript objects (`Record<string, any>`).  We model a
JavaScript value as a rational number (JS numbers; the only division that
occurs, `pieces.length / 32`, is exact on binary doubles in the ranges
involved), a byte buffer, a string, an array of values, an object with
insertion-ordered fields, or `undefined`.  Objects are association lists
in property insertion order, which is how `Object.entries` enumerates the
(non-numeric) keys that occur here. -/

inductive JSVal where
  | num (q : ℚ)
  | bytes (b : List Nat)
  | strV (s : String)
  | arr (elems : List JSVal)
  | obj (fields : List (String × JSVal))
  | undef
deriving Repr

abbrev JSObj := List (String × JSVal)

/-- Property lookup `o[k]` on an object: first field with the given name. -/
def getKey : JSObj → String → Option JSVal
  | [], _ => none
  | (k, v) :: rest, key => if k = key then some v else getKey rest key

/-- Property write `o[k] = v`: overwrite in place if the key exists,
otherwise append the new property (JS insertion-order semantics). -/
def setKey : JSObj → String → JSVal → JSObj
  | [], key, v => [(key, v)]
  | (k, w) :: rest, key, v =>
      if k = key then (k, v) :: rest else (k, w) :: setKey rest key v

/-- The object `current[dir] || {}` descended into by `buildV1FileTree`:
an existing object property is reused, a missing (or falsy) property
yields a fresh empty object.  A truthy non-object property would make the
JavaScript source throw a TypeError on the subsequent property write
(strict mode); that case is unreachable for the well-formed inputs
considered below and is modelled as a fresh object. -/
def subObj : Option JSVal → JSObj
  | some (JSVal.obj s) => s
  | _ => []

/-- One file insertion of `buildV1FileTree`: walk `file.path` creating
intermediate directories on demand, then set the final segment to
`{ length: file.length }`.  An empty path makes the JavaScript source
read `file.path[-1]`, which is `undefined`, and write the property
named "undefined". -/
def insertPath : JSObj → List String → ℚ → JSObj
  | o, [], len => setKey o "undefined" (JSVal.obj [("length", JSVal.num len)])
  | o, [last], len => setKey o last (JSVal.obj [("length", JSVal.num len)])
  | o, d :: rest, len =>
      setKey o d (JSVal.obj (insertPath (subObj (getKey o d)) rest len))

/-- `buildV1FileTree` from `files/route.ts`: fold the flat file list into a
nested object, one insertion per file, in list order. -/
def buildV1FileTree (files : List (List String × ℚ)) : JSObj :=
  files.foldl (fun tree f => insertPath tree f.1 f.2) []

/-- `flattenV2FileTree` from `files/route.ts`: depth-first walk of a nested
object.  A node with a defined `length` property is reported as a file
with that property value (whatever it is); JavaScript also gives buffers,
strings and arrays a numeric `length`, so those are reported as files
too; a number has no `length` and `Object.entries` of a number is empty;
`undefined` is unreachable for decoded torrent data (the source would
throw reading `.length` of it). -/
def flattenV2FileTree : JSObj → List String → List (List String × JSVal)
  | [], _ => []
  | (name, node) :: rest, basePath =>
      (match node with
        | JSVal.obj o =>
            match getKey o "length" with
            | some v => [(basePath ++ [name], v)]
            | none => flattenV2FileTree o (basePath ++ [name])
        | JSVal.bytes b => [(basePath ++ [name], JSVal.num b.length)]
        | JSVal.strV s => [(basePath ++ [name], JSVal.num s.length)]
        | JSVal.arr l => [(basePath ++ [name], JSVal.num l.length)]
        | JSVal.num _ => []
        | JSVal.undef => []) ++ flattenV2FileTree rest basePath

/-- `buildV2FileTree` from `files/route.ts`: walk the decoded
`info["file tree"]` object.  A node whose object value has a defined
empty-string property is a leaf; its attributes are
`{ length, pieces: pieces.length / 32 (0 when absent), path }`.
Any other object is a directory.  A non-object value has no
empty-string property and `Object.entries` of it is modelled as empty
(for a buffer JavaScript would enumerate its byte indices; that shape
does not occur in decoded torrent data). -/
def v2Leaf (attrs : JSVal) (currentPath : List String) : JSVal :=
  JSVal.obj
    [("length",
        match attrs with
        | JSVal.obj a => (getKey a "length").getD JSVal.undef
        | JSVal.bytes b => JSVal.num b.length
        | JSVal.strV s => JSVal.num s.length
        | JSVal.arr l => JSVal.num l.length
        | _ => JSVal.undef),
     ("pieces",
        match attrs with
        | JSVal.obj a =>
            match getKey a "pieces" with
            | some (JSVal.bytes p) => JSVal.num ((p.length : ℚ) / 32)
            | _ => JSVal.num 0
        | _ => JSVal.num 0),
     ("path", JSVal.arr (currentPath.map JSVal.strV))]

def buildV2FileTree : JSObj → List String → JSObj
  | [], _ => []
  | (key, value) :: rest, path =>
      (key,
        match value with
        | JSVal.obj o =>
            match getKey o "" with
            | some attrs => v2Leaf attrs (path ++ [key])
            | none => JSVal.obj (buildV2FileTree o (path ++ [key]))
        | _ => JSVal.obj []) :: buildV2FileTree rest path

/-! ### Well-formed file lists.

The spec requires a `FileEntry` list to be "flat, order matches canonical
traversal (depth-first, insertion order of directories)".  We capture such
lists as exactly the depth-first listings of proper file forests: ordered
forests whose nodes are files (with a length) or nonempty directories,
with distinct names among siblings. -/

inductive Forest where
  | nil : Forest
  | fileCons (name : String) (len : ℚ) (rest : Forest) : Forest
  | dirCons (name : String) (children : Forest) (rest : Forest) : Forest
deriving Repr

/-- Names of the roots of a forest. -/
def Forest.names : Forest → List String
  | .nil => []
  | .fileCons n _ rest => n :: rest.names
  | .dirCons n _ rest => n :: rest.names

/-- Depth-first listing of a forest as a flat file list. -/
def Forest.dfs : Forest → List (List String × ℚ)
  | .nil => []
  | .fileCons n len rest => ([n], len) :: rest.dfs
  | .dirCons n ch rest => (ch.dfs.map fun p => (n :: p.1, p.2)) ++ rest.dfs

/-- The nested object a proper forest denotes: files become
`{ length }` objects, directories become objects of their children. -/
def Forest.toObj : Forest → JSObj
  | .nil => []
  | .fileCons n len rest => (n, JSVal.obj [("length", JSVal.num len)]) :: rest.toObj
  | .dirCons n ch rest => (n, JSVal.obj ch.toObj) :: rest.toObj

/-- A proper forest: sibling names are distinct, directories are nonempty.
The extra side condition `noLengthName` needed by the flattener is kept
separate below. -/
def Forest.proper : Forest → Prop
  | .nil => True
  | .fileCons n _ rest => n ∉ rest.names ∧ rest.proper
  | .dirCons n ch rest => n ∉ rest.names ∧ ch ≠ .nil ∧ ch.proper ∧ rest.proper

/-- No directory of the forest has a child (file or subdirectory) named
"length": such a child makes `flattenV2FileTree` misclassify the
directory as a file, because the classification test is
`node.length !== undefined`. -/
def Forest.noLengthName : Forest → Prop
  | .nil => True
  | .fileCons _ _ rest => rest.noLengthName
  | .dirCons _ ch rest => "length" ∉ ch.names ∧ ch.noLengthName ∧ rest.noLengthName

/-! ### Association-list lemmas. -/

theorem getKey_setKey_self (o : JSObj) (k : String) (v : JSVal) :
    getKey (setKey o k v) k = some v := by
  induction o with
  | nil => simp [setKey, getKey]
  | cons hd tl ih =>
      obtain ⟨k', w⟩ := hd
      by_cases h : k' = k <;> simp [setKey, getKey, h, ih]

theorem setKey_setKey (o : JSObj) (k : String) (v w : JSVal) :
    setKey (setKey o k v) k w = setKey o k w := by
  induction o with
  | nil => simp [setKey]
  | cons hd tl ih =>
      obtain ⟨k', u⟩ := hd
      by_cases h : k' = k <;> simp [setKey, h, ih]

theorem setKey_of_getKey_none (o : JSObj) (k : String) (v : JSVal)
    (h : getKey o k = none) : setKey o k v = o ++ [(k, v)] := by
  induction o with
  | nil => simp [setKey]
  | cons hd tl ih =>
      obtain ⟨k', u⟩ := hd
      by_cases hk : k' = k
      · simp [getKey, hk] at h
      · simp [getKey, hk] at h
        simp [setKey, hk, ih h]

theorem getKey_append_left (o o' : JSObj) (k : String) (v : JSVal)
    (h : getKey o k = some v) : getKey (o ++ o') k = some v := by
  induction o with
  | nil => simp [getKey] at h
  | cons hd tl ih =>
      obtain ⟨k', u⟩ := hd
      by_cases hk : k' = k <;> simp_all [getKey]

theorem getKey_append_of_none (o o' : JSObj) (k : String)
    (h : getKey o k = none) : getKey (o ++ o') k = getKey o' k := by
  induction o with
  | nil => simp
  | cons hd tl ih =>
      obtain ⟨k', u⟩ := hd
      by_cases hk : k' = k <;> simp_all [getKey]

/-- Keys of `Forest.toObj` are the root names. -/
theorem getKey_toObj_eq_none (F : Forest) (k : String) (h : k ∉ F.names) :
    getKey F.toObj k = none := by
  induction F with
  | nil => simp [Forest.toObj, getKey]
  | fileCons n len rest ih =>
      simp [Forest.names] at h
      simp [Forest.toObj, getKey, Ne.symm h.1, ih h.2]
  | dirCons n ch rest ihc ihr =>
      simp [Forest.names] at h
      simp [Forest.toObj, getKey, Ne.symm h.1, ihr h.2]

/-! ### The build/flatten round trip. -/

/-- Folding `insertPath` over a file list, starting from an arbitrary
accumulated tree (so `buildV1FileTree files = foldInsert files []`). -/
def foldInsert (files : List (List String × ℚ)) (o : JSObj) : JSObj :=
  files.foldl (fun tree f => insertPath tree f.1 f.2) o

theorem buildV1FileTree_eq_foldInsert (files : List (List String × ℚ)) :
    buildV1FileTree files = foldInsert files [] := rfl

theorem foldInsert_append (a b : List (List String × ℚ)) (o : JSObj) :
    foldInsert (a ++ b) o = foldInsert b (foldInsert a o) :=
  List.foldl_append ..

/-- Inserting a nonempty block of files that all live below the same
top-level directory `n` updates only the `n` entry, building the inner
tree by the same fold. -/
theorem foldInsert_map_cons (n : String) (l : List (List String × ℚ))
    (hne : l ≠ []) (hpaths : ∀ p ∈ l, p.1 ≠ []) (o : JSObj) :
    foldInsert (l.map fun p => (n :: p.1, p.2)) o
      = setKey o n (JSVal.obj (foldInsert l (subObj (getKey o n)))) := by
  induction l generalizing o with
  | nil => exact absurd rfl hne
  | cons x l ih =>
      obtain ⟨xp, xlen⟩ := x
      have hx : xp ≠ [] := hpaths (xp, xlen) (by simp)
      obtain ⟨y, ys, rfl⟩ := List.exists_cons_of_ne_nil hx
      rcases l with _ | ⟨z, l⟩
      · rfl
      · have hne' : (z :: l) ≠ [] := by simp
        have hpaths' : ∀ p ∈ z :: l, p.1 ≠ [] := fun p hp =>
          hpaths p (List.mem_cons_of_mem _ hp)
        have step := ih hne' hpaths'
          (setKey o n (JSVal.obj (insertPath (subObj (getKey o n)) (y :: ys) xlen)))
        calc foldInsert
              (List.map (fun p => (n :: p.1, p.2)) ((y :: ys, xlen) :: z :: l)) o
            = foldInsert (List.map (fun p => (n :: p.1, p.2)) (z :: l))
                (setKey o n
                  (JSVal.obj (insertPath (subObj (getKey o n)) (y :: ys) xlen))) := rfl
          _ = setKey
                (setKey o n
                  (JSVal.obj (insertPath (subObj (getKey o n)) (y :: ys) xlen))) n
                (JSVal.obj (foldInsert (z :: l)
                  (subObj (getKey
                    (setKey o n (JSVal.obj
                      (insertPath (subObj (getKey o n)) (y :: ys) xlen))) n)))) := step
          _ = setKey o n
                (JSVal.obj
                  (foldInsert ((y :: ys, xlen) :: z :: l) (subObj (getKey o n)))) := by
                rw [getKey_setKey_self, setKey_setKey]; rfl

theorem Forest.dfs_paths_ne_nil (F : Forest) : ∀ p ∈ F.dfs, p.1 ≠ [] := by
  induction F with
  | nil => simp [Forest.dfs]
  | fileCons n len rest ih =>
      intro p hp
      simp only [Forest.dfs, List.mem_cons] at hp
      rcases hp with rfl | hp
      · simp
      · exact ih p hp
  | dirCons n ch rest ihc ihr =>
      intro p hp
      simp only [Forest.dfs, List.mem_append, List.mem_map] at hp
      rcases hp with ⟨q, _, hq⟩ | hp
      · rw [← hq]; simp
      · exact ihr p hp

theorem Forest.dfs_ne_nil (F : Forest) (hF : F.proper) (h : F ≠ .nil) :
    F.dfs ≠ [] := by
  induction F with
  | nil => exact absurd rfl h
  | fileCons n len rest ih => simp [Forest.dfs]
  | dirCons n ch rest ihc ihr =>
      obtain ⟨-, hch, hchp, -⟩ := hF
      have := ihc hchp hch
      simp only [Forest.dfs, ne_eq, List.append_eq_nil, List.map_eq_nil_iff]
      exact fun ⟨a, _⟩ => this a

/-- Folding the depth-first listing of a proper forest into an accumulated
tree whose keys avoid the forest's root names simply appends the
forest's denotation. -/
theorem foldInsert_dfs (F : Forest) (hF : F.proper) :
    ∀ o : JSObj, (∀ n ∈ F.names, getKey o n = none) →
      foldInsert F.dfs o = o ++ F.toObj := by
  induction F with
  | nil => intro o _; simp [Forest.dfs, Forest.toObj, foldInsert]
  | fileCons n len rest ih =>
      intro o ho
      obtain ⟨hn, hrest⟩ := hF
      have hon : getKey o n = none := ho n (by simp [Forest.names])
      have step : insertPath o [n] len
          = o ++ [(n, JSVal.obj [("length", JSVal.num len)])] := by
        rw [insertPath, setKey_of_getKey_none o n _ hon]
      simp only [Forest.dfs, foldInsert, List.foldl_cons]
      have := ih hrest (o ++ [(n, JSVal.obj [("length", JSVal.num len)])])
        (fun m hm => by
          rw [getKey_append_of_none _ _ _ (ho m (by simp [Forest.names, hm]))]
          have hmn : ¬ (n = m) := fun e => hn (e ▸ hm)
          simp [getKey, hmn])
      simp only [foldInsert] at this
      rw [step, this, Forest.toObj, List.append_assoc]
      simp
  | dirCons n ch rest ihc ihr =>
      intro o ho
      obtain ⟨hn, hch, hchp, hrest⟩ := hF
      have hon : getKey o n = none := ho n (by simp [Forest.names])
      simp only [Forest.dfs, foldInsert_append]
      rw [foldInsert_map_cons n ch.dfs (ch.dfs_ne_nil hchp hch)
        (ch.dfs_paths_ne_nil) o, hon]
      have hinner := ihc hchp [] (by simp [getKey])
      simp only [List.nil_append] at hinner
      rw [show subObj none = [] from rfl, hinner,
        setKey_of_getKey_none o n _ hon]
      have := ihr hrest (o ++ [(n, JSVal.obj ch.toObj)])
        (fun m hm => by
          rw [getKey_append_of_none _ _ _ (ho m (by simp [Forest.names, hm]))]
          have hmn : ¬ (n = m) := fun e => hn (e ▸ hm)
          simp [getKey, hmn])
      rw [this, Forest.toObj, List.append_assoc]
      simp

/-- Flattening the denotation of a forest none of whose directories has a
child named "length" recovers the depth-first listing. -/
theorem flatten_toObj (F : Forest) (hF : F.noLengthName) :
    ∀ base, flattenV2FileTree F.toObj base
      = F.dfs.map fun p => (base ++ p.1, JSVal.num p.2) := by
  induction F with
  | nil => intro base; simp [Forest.dfs, Forest.toObj, flattenV2FileTree]
  | fileCons n len rest ih =>
      intro base
      simp only [Forest.toObj, Forest.dfs, flattenV2FileTree, List.map_cons]
      simp [getKey, ih hF base]
  | dirCons n ch rest ihc ihr =>
      intro base
      obtain ⟨hlen, hchn, hrest⟩ := hF
      simp only [Forest.toObj, Forest.dfs, flattenV2FileTree]
      rw [getKey_toObj_eq_none ch "length" hlen, ihc hchn (base ++ [n]),
        ihr hrest base, List.map_append, List.map_map]
      congr 1
      apply List.map_congr_left
      intro p _
      simp

/-! ### Claim C8. -/

/-- C8 counterexample: the claim `flatten(buildFileTree(files)) == files`
fails for the well-formed single-entry file list
`[{path: ["d", "length"], length: 5}]`.  The built tree is
`{d: {length: {length: 5}}}`, and `flattenV2FileTree` classifies the
directory node `d` as a file because `d.length` is defined (it is the
child object), returning `[{path: ["d"], length: {length: 5}}]`. -/
theorem flatten_buildV1FileTree_length_segment_cex :
    flattenV2FileTree (buildV1FileTree [(["d", "length"], (5 : ℚ))]) []
        = [(["d"], JSVal.obj [("length", JSVal.num 5)])]
      ∧ flattenV2FileTree (buildV1FileTree [(["d", "length"], (5 : ℚ))]) []
        ≠ [(["d", "length"], JSVal.num 5)] := by
  have h : flattenV2FileTree (buildV1FileTree [(["d", "length"], (5 : ℚ))]) []
      = [(["d"], JSVal.obj [("length", JSVal.num 5)])] := by
    simp [buildV1FileTree, insertPath, subObj, getKey, setKey, flattenV2FileTree]
  exact ⟨h, by rw [h]; simp⟩

/-- C8 (amended): for every well-formed `FileEntry` list — the depth-first
listing of a proper forest — in which no file or subdirectory inside a
directory is named "length", flattening the built tree returns the
original list (with each length reported as the stored JS number). -/
theorem flatten_buildV1FileTree_of_wellFormed (F : Forest)
    (h1 : F.proper) (h2 : F.noLengthName) :
    flattenV2FileTree (buildV1FileTree F.dfs) []
      = F.dfs.map fun p => (p.1, JSVal.num p.2) := by
  rw [buildV1FileTree_eq_foldInsert,
    foldInsert_dfs F h1 [] (fun n _ => rfl), List.nil_append,
    flatten_toObj F h2]
  simp

/-- A small sample forest: directory `a` holding files `x`, `y`, then a
root file `b`. -/
def sampleForest : Forest :=
  Forest.dirCons "a" (Forest.fileCons "x" 1 (Forest.fileCons "y" 2 Forest.nil))
    (Forest.fileCons "b" 3 Forest.nil)

theorem flatten_buildV1FileTree_of_wellFormed_witness :
    flattenV2FileTree (buildV1FileTree sampleForest.dfs) []
      = sampleForest.dfs.map (fun p => (p.1, JSVal.num p.2)) :=
  flatten_buildV1FileTree_of_wellFormed sampleForest
    (by simp [sampleForest, Forest.proper, Forest.names])
    (by simp [sampleForest, Forest.noLengthName, Forest.names])

/-! ### Claim C9. -/

/-- No node anywhere in the forest bears the given name. -/
def Forest.noName (s : String) : Forest → Prop
  | .nil => True
  | .fileCons n _ rest => n ≠ s ∧ rest.noName s
  | .dirCons n ch rest => n ≠ s ∧ ch.noName s ∧ rest.noName s

theorem Forest.not_mem_names_of_noName (s : String) (F : Forest)
    (h : F.noName s) : s ∉ F.names := by
  induction F with
  | nil => simp [Forest.names]
  | fileCons n len rest ih =>
      obtain ⟨hn, hr⟩ := h
      simp [Forest.names, ih hr, Ne.symm hn]
  | dirCons n ch rest ihc ihr =>
      obtain ⟨hn, _, hr⟩ := h
      simp [Forest.names, ihr hr, Ne.symm hn]

/-- Every directory object in the denotation of the forest lacks the
given key. -/
def dirObjsLackKey (s : String) : Forest → Prop
  | .nil => True
  | .fileCons _ _ rest => dirObjsLackKey s rest
  | .dirCons _ ch rest =>
      getKey ch.toObj s = none ∧ dirObjsLackKey s ch ∧ dirObjsLackKey s rest

theorem dirObjsLackKey_of_noName (s : String) (F : Forest)
    (h : F.noName s) : dirObjsLackKey s F := by
  induction F with
  | nil => trivial
  | fileCons n len rest ih => exact ih h.2
  | dirCons n ch rest ihc ihr =>
      obtain ⟨-, hch, hr⟩ := h
      exact ⟨getKey_toObj_eq_none ch s (Forest.not_mem_names_of_noName s ch hch),
        ihc hch, ihr hr⟩

/-- C9 counterexample: for the file list `[{path: ["d", "f"], length: 5}]`
the built tree is `{d: {f: {length: 5}}}`; the directory node `d` has the
single property `f` and carries no `size` field at all (the claim asserts
`size = 5` here). -/
theorem directory_size_field_cex :
    buildV1FileTree [(["d", "f"], (5 : ℚ))]
        = [("d", JSVal.obj [("f", JSVal.obj [("length", JSVal.num 5)])])]
      ∧ getKey [("f", JSVal.obj [("length", JSVal.num 5)])] "size" = none :=
  ⟨rfl, rfl⟩

/-- C9 (amended): directory nodes store no size field.  For a well-formed
file list none of whose entries is named "size", the v1-built tree is the
plain children-map denotation of the forest and every directory object in
it lacks a "size" key; the v2 builder likewise emits exactly the source
keys at every level (so it never adds a size field either).  The only
size-like quantity maintained is the record total length, computed from
the flat file list (see the metadata model below). -/
theorem directory_nodes_have_no_size (F : Forest)
    (h1 : F.proper) (h2 : F.noName "size") :
    buildV1FileTree F.dfs = F.toObj
      ∧ dirObjsLackKey "size" F
      ∧ ∀ (o : JSObj) (p : List String),
          (buildV2FileTree o p).map Prod.fst = o.map Prod.fst := by
  refine ⟨?_, dirObjsLackKey_of_noName "size" F h2, ?_⟩
  · rw [buildV1FileTree_eq_foldInsert, foldInsert_dfs F h1 [] (fun n _ => rfl),
      List.nil_append]
  · intro o p
    induction o generalizing p with
    | nil => simp [buildV2FileTree]
    | cons hd tl ih =>
        obtain ⟨k, v⟩ := hd
        rw [buildV2FileTree.eq_def]
        simp [ih]

theorem directory_nodes_have_no_size_witness :
    buildV1FileTree sampleForest.dfs = sampleForest.toObj
      ∧ dirObjsLackKey "size" sampleForest
      ∧ ∀ (o : JSObj) (p : List String),
          (buildV2FileTree o p).map Prod.fst = o.map Prod.fst :=
  directory_nodes_have_no_size sampleForest
    (by simp [sampleForest, Forest.proper, Forest.names])
    (by simp [sampleForest, Forest.noName])

/-! ### The acquisition orchestration (`add/route.ts`, POST handler).

The handler is a linear workflow against the download backend: add the
torrent (always stopped), poll the most-recently-added listing until the
entry hash matches `torrent.metadata.hash` (at most 10 attempts, 100 ms
delay each), optionally exclude unselected files via one `filePrio`
request, then start the torrent unless the caller asked for paused.
We model the backend's responses as an input (`Backend`) and record the
outgoing backend calls as a trace. -/

/-- The fields of the request body used by the handler. -/
structure AddTorrent where
  hash : String
  metaHash : String
  files : List (List String)

structure AddData where
  savePath : String
  sequential : Bool
  firstLastPiecePrio : Bool
  contentLayout : String
  paused : Bool
  selectedFiles : List String

/-- The backend's behaviour: whether the add call succeeds, the body of
each `torrents/info` poll (`none` models a non-JSON body whose parse
throws and is swallowed; `some hs` the listed entry hashes), and whether
the `filePrio` and `start` calls succeed. -/
structure Backend where
  addOk : Bool
  polls : Nat → Option (List String)
  prioOk : Bool
  startOk : Bool

/-- One outgoing backend interaction. -/
inductive BCall where
  | add (urls savepath : String)
      (stopped sequentialDownload firstLastPiecePrio : Bool)
      (contentLayout : String)
  | sleep (ms : Nat)
  | info
  | filePrio (hash : String) (priority : Nat) (ids : List Nat)
  | start (hashes : String)
deriving Repr, DecidableEq

inductive AddOutcome where
  | ok (hash : String)
  | addFailed
  | notFound
  | excludeEmpty
  | prioFailed
  | startFailed
deriving Repr, DecidableEq

/-- The loop's success test `entry!.length && entry[0].hash === target`:
a parse failure or an empty listing does not match; otherwise the first
entry's hash is compared with the target. -/
def pollMatches (resp : Option (List String)) (target : String) : Bool :=
  match resp with
  | some (h :: _) => h = target
  | _ => false

/-- The registration poll loop `do {...} while (--retrys)`, with
`retrys = 10` initially.  Arguments: attempt index and remaining
`retrys`; result: (matched, number of fetches performed, final value of
`retrys`).  A match breaks out without decrementing; otherwise the loop
continues while the decremented counter is nonzero. -/
def pollGo (polls : Nat → Option (List String)) (target : String) :
    Nat → Nat → Bool × Nat × Nat
  | _, 0 => (false, 0, 0)
  | i, r + 1 =>
      if pollMatches (polls i) target then (true, 1, r + 1)
      else if r = 0 then (false, 1, 0)
      else
        let rest := pollGo polls target (i + 1) r
        (rest.1, rest.2.1 + 1, rest.2.2)

/-- The `for` loop computing the do-not-download indices: walk the joined
path list with a running index, keeping the indices of paths in the set
difference (all paths minus selected paths); since each path is drawn
from the full list, `difference.has(file)` is exactly
`file ∉ selectedFiles`. -/
def excludeLoop (selected : List String) : List String → Nat → List Nat
  | [], _ => []
  | f :: rest, i =>
      if f ∉ selected then i :: excludeLoop selected rest (i + 1)
      else excludeLoop selected rest (i + 1)

def excludedIds (joined selected : List String) : List Nat :=
  excludeLoop selected joined 0

/-- The Starting stage: issue `torrents/start` unless the caller asked
for paused; a failed start throws (HTTP 500). -/
def startStage (req : AddTorrent) (data : AddData) (backend : Backend)
    (calls : List BCall) : AddOutcome × List BCall :=
  if data.paused then (AddOutcome.ok req.metaHash, calls)
  else
    let calls2 := calls ++ [BCall.start req.metaHash]
    if backend.startOk then (AddOutcome.ok req.metaHash, calls2)
    else (AddOutcome.startFailed, calls2)

/-- The cherry-picking stage: only when fewer files are selected than
exist, compute the complement indices; an empty complement throws;
otherwise issue one priority-0 `filePrio` for those indices (a rejected
call returns the backend status and stops the workflow). -/
def prioStage (req : AddTorrent) (data : AddData) (backend : Backend)
    (calls : List BCall) : AddOutcome × List BCall :=
  if data.selectedFiles.length < req.files.length then
    if excludedIds (req.files.map (String.intercalate "/"))
        data.selectedFiles = [] then
      (AddOutcome.excludeEmpty, calls)
    else
      if backend.prioOk then
        startStage req data backend (calls ++
          [BCall.filePrio req.metaHash 0
            (excludedIds (req.files.map (String.intercalate "/"))
              data.selectedFiles)])
      else
        (AddOutcome.prioFailed, calls ++
          [BCall.filePrio req.metaHash 0
            (excludedIds (req.files.map (String.intercalate "/"))
              data.selectedFiles)])
  else startStage req data backend calls

/-- The POST handler body: add the torrent with `stopped=true`
unconditionally, poll for registration (10 retries, 100 ms delay before
each fetch), then cherry-pick and start. -/
def postAdd (req : AddTorrent) (data : AddData) (backend : Backend) :
    AddOutcome × List BCall :=
  let addCall := BCall.add req.hash data.savePath true data.sequential
    data.firstLastPiecePrio data.contentLayout
  if backend.addOk then
    let pr := pollGo backend.polls req.metaHash 0 10
    let calls := addCall ::
      (List.range pr.2.1).flatMap (fun _ => [BCall.sleep 100, BCall.info])
    if pr.2.2 = 0 then (AddOutcome.notFound, calls)
    else prioStage req data backend calls
  else (AddOutcome.addFailed, [addCall])

/-! ### Poll-loop lemmas. -/

theorem pollGo_fetches_le (polls : Nat → Option (List String)) (target : String) :
    ∀ (r i : Nat), (pollGo polls target i r).2.1 ≤ r := by
  intro r
  induction r with
  | zero => intro i; simp [pollGo]
  | succ r ih =>
      intro i
      by_cases hm : pollMatches (polls i) target
      · simp [pollGo, hm]
      · by_cases hr : r = 0
        · simp [pollGo, hm, hr]
        · simpa [pollGo, hm, hr] using ih (i + 1)

theorem pollGo_no_match (polls : Nat → Option (List String)) (target : String) :
    ∀ (r i : Nat), 0 < r →
      (∀ k, k < r → pollMatches (polls (i + k)) target = false) →
      pollGo polls target i r = (false, r, 0) := by
  intro r
  induction r with
  | zero => intro i h; omega
  | succ r ih =>
      intro i _ hall
      have h0 : pollMatches (polls i) target = false := by
        simpa using hall 0 (by omega)
      by_cases hr : r = 0
      · simp [pollGo, h0, hr]
      · have := ih (i + 1) (by omega) (fun k hk => by
          have := hall (k + 1) (by omega)
          simpa [Nat.add_assoc, Nat.add_comm 1 k] using this)
        simp [pollGo, h0, hr, this]

theorem pollGo_first_match (polls : Nat → Option (List String)) (target : String) :
    ∀ (r i j : Nat), j < r →
      (∀ k, k < j → pollMatches (polls (i + k)) target = false) →
      pollMatches (polls (i + j)) target = true →
      pollGo polls target i r = (true, j + 1, r - j) := by
  intro r
  induction r with
  | zero => intro i j h; omega
  | succ r ih =>
      intro i j hj hbefore hmatch
      rcases j with _ | j
      · have h0 : pollMatches (polls i) target = true := by simpa using hmatch
        simp [pollGo, h0]
      · have h0 : pollMatches (polls i) target = false := by
          simpa using hbefore 0 (by omega)
        have hr : r ≠ 0 := by omega
        have := ih (i + 1) j (by omega)
          (fun k hk => by
            have := hbefore (k + 1) (by omega)
            simpa [Nat.add_assoc, Nat.add_comm 1 k] using this)
          (by simpa [Nat.add_assoc, Nat.add_comm 1 j] using hmatch)
        simp [pollGo, h0, hr, this]

/-! ### Exclusion-index lemmas. -/

theorem excludeLoop_length (sel : List String) :
    ∀ (l : List String) (i : Nat),
      (excludeLoop sel l i).length = (l.filter fun s => decide (s ∉ sel)).length := by
  intro l
  induction l with
  | nil => intro i; simp [excludeLoop]
  | cons f rest ih =>
      intro i
      by_cases hf : f ∉ sel
      · simp [excludeLoop, hf, ih]
      · simp [excludeLoop, hf, ih, List.filter_cons]

theorem excludeLoop_mem (sel : List String) :
    ∀ (l : List String) (i j : Nat),
      j ∈ excludeLoop sel l i
        ↔ ∃ (k : Nat) (hk : k < l.length), j = i + k ∧ l.get ⟨k, hk⟩ ∉ sel := by
  intro l
  induction l with
  | nil => intro i j; simp [excludeLoop]
  | cons f rest ih =>
      intro i j
      by_cases hf : f ∉ sel
      · simp only [excludeLoop, if_pos hf, List.mem_cons, ih]
        constructor
        · rintro (rfl | ⟨k, hk, rfl, hg⟩)
          · exact ⟨0, by simp, by omega, by simpa using hf⟩
          · exact ⟨k + 1, by simp; omega, by omega, by simpa using hg⟩
        · rintro ⟨k, hk, rfl, hg⟩
          rcases k with _ | k
          · exact Or.inl (by omega)
          · exact Or.inr ⟨k, by simp at hk; omega, by omega, by simpa using hg⟩
      · simp only [excludeLoop, if_neg hf, ih]
        constructor
        · rintro ⟨k, hk, rfl, hg⟩
          exact ⟨k + 1, by simp; omega, by omega, by simpa using hg⟩
        · rintro ⟨k, hk, rfl, hg⟩
          rcases k with _ | k
          · exact absurd (by simpa using hg) (by simpa using hf)
          · exact ⟨k, by simp at hk; omega, by omega, by simpa using hg⟩

theorem excludedIds_mem (joined sel : List String) (j : Nat) :
    j ∈ excludedIds joined sel
      ↔ ∃ (hj : j < joined.length), joined.get ⟨j, hj⟩ ∉ sel := by
  rw [excludedIds, excludeLoop_mem]
  constructor
  · rintro ⟨k, hk, rfl, hg⟩
    exact ⟨by simpa using hk, by simpa using hg⟩
  · rintro ⟨hj, hg⟩
    exact ⟨j, hj, by omega, hg⟩

theorem excludedIds_length (joined sel : List String)
    (hjnd : joined.Nodup) (hsnd : sel.Nodup)
    (hsub : ∀ s ∈ sel, s ∈ joined) :
    (excludedIds joined sel).length = joined.length - sel.length := by
  have h1 : (excludedIds joined sel).length
      = (joined.filter fun s => decide (s ∉ sel)).length :=
    excludeLoop_length sel joined 0
  have h2 := List.length_eq_length_filter_add (l := joined)
    (fun s => decide (s ∈ sel))
  have h3 : (joined.filter fun s => decide (s ∈ sel)).length = sel.length := by
    have hperm : List.Perm (joined.filter fun s => decide (s ∈ sel)) sel := by
      rw [List.perm_ext_iff_of_nodup (hjnd.filter _) hsnd]
      intro a
      simp only [List.mem_filter, decide_eq_true_eq]
      exact ⟨fun h => h.2, fun h => ⟨hsub a h, h⟩⟩
    exact hperm.length_eq
  have h4 : (joined.filter fun s => decide (s ∉ sel))
      = joined.filter fun s => !(decide (s ∈ sel)) := by
    apply List.filter_congr
    intro s _
    simp
  rw [h1, h4]
  omega

/-! ### Trace lemmas for the orchestration stages. -/

def isFilePrio : BCall → Bool
  | BCall.filePrio .. => true
  | _ => false

theorem startStage_filter_filePrio (req : AddTorrent) (data : AddData)
    (backend : Backend) (calls : List BCall) :
    ((startStage req data backend calls).2).filter isFilePrio
      = calls.filter isFilePrio := by
  unfold startStage
  split
  · rfl
  · split <;> simp [isFilePrio]

theorem startStage_start_mem (req : AddTorrent) (data : AddData)
    (backend : Backend) (calls : List BCall) (s : String)
    (h : BCall.start s ∈ (startStage req data backend calls).2) :
    BCall.start s ∈ calls ∨ data.paused = false := by
  unfold startStage at h
  by_cases hp : data.paused
  · rw [if_pos hp] at h
    exact Or.inl h
  · exact Or.inr (by simpa using hp)

theorem startStage_suffix (req : AddTorrent) (data : AddData)
    (backend : Backend) (calls : List BCall) :
    ∃ t, (startStage req data backend calls).2 = calls ++ t := by
  unfold startStage
  split
  · exact ⟨[], by simp⟩
  · split <;> exact ⟨[BCall.start req.metaHash], rfl⟩

theorem prioStage_suffix (req : AddTorrent) (data : AddData)
    (backend : Backend) (calls : List BCall) :
    ∃ t, (prioStage req data backend calls).2 = calls ++ t := by
  unfold prioStage
  split
  · split
    · exact ⟨[], by simp⟩
    · split
      · obtain ⟨t, ht⟩ := startStage_suffix req data backend
          (calls ++ [BCall.filePrio req.metaHash 0
            (excludedIds (req.files.map (String.intercalate "/"))
              data.selectedFiles)])
        exact ⟨[BCall.filePrio req.metaHash 0
          (excludedIds (req.files.map (String.intercalate "/"))
            data.selectedFiles)] ++ t, by rw [ht, List.append_assoc]⟩
      · exact ⟨[BCall.filePrio req.metaHash 0
          (excludedIds (req.files.map (String.intercalate "/"))
            data.selectedFiles)], rfl⟩
  · exact startStage_suffix req data backend calls

theorem prioStage_start_mem (req : AddTorrent) (data : AddData)
    (backend : Backend) (calls : List BCall) (s : String)
    (h : BCall.start s ∈ (prioStage req data backend calls).2) :
    BCall.start s ∈ calls ∨ data.paused = false := by
  unfold prioStage at h
  split at h
  · split at h
    · exact Or.inl h
    · split at h
      · rcases startStage_start_mem req data backend _ s h with hm | hp
        · rcases List.mem_append.mp hm with hm | hm
          · exact Or.inl hm
          · simp at hm
        · exact Or.inr hp
      · rcases List.mem_append.mp h with hm | hm
        · exact Or.inl hm
        · simp at hm
  · exact startStage_start_mem req data backend calls s h

theorem prioStage_filter_empty (req : AddTorrent) (data : AddData)
    (backend : Backend) (calls : List BCall)
    (hlt : data.selectedFiles.length < req.files.length)
    (hids : excludedIds (req.files.map (String.intercalate "/"))
      data.selectedFiles = []) :
    ((prioStage req data backend calls).2).filter isFilePrio
      = calls.filter isFilePrio := by
  unfold prioStage
  rw [if_pos hlt, if_pos hids]

theorem prioStage_filter_subset (req : AddTorrent) (data : AddData)
    (backend : Backend) (calls : List BCall)
    (hlt : data.selectedFiles.length < req.files.length)
    (hids : excludedIds (req.files.map (String.intercalate "/"))
      data.selectedFiles ≠ []) :
    ((prioStage req data backend calls).2).filter isFilePrio
      = calls.filter isFilePrio
        ++ [BCall.filePrio req.metaHash 0
          (excludedIds (req.files.map (String.intercalate "/"))
            data.selectedFiles)] := by
  unfold prioStage
  rw [if_pos hlt, if_neg hids]
  split
  · rw [startStage_filter_filePrio]
    simp [isFilePrio]
  · simp [isFilePrio]

theorem prioStage_filter_skip (req : AddTorrent) (data : AddData)
    (backend : Backend) (calls : List BCall)
    (hge : ¬ data.selectedFiles.length < req.files.length) :
    ((prioStage req data backend calls).2).filter isFilePrio
      = calls.filter isFilePrio := by
  unfold prioStage
  rw [if_neg hge]
  exact startStage_filter_filePrio req data backend calls

/-- The add call and the polling sleeps/fetches contain no `filePrio`. -/
theorem pollCalls_filter_filePrio (n : Nat) :
    ((List.range n).flatMap fun _ => [BCall.sleep 100, BCall.info]).filter
      isFilePrio = [] := by
  induction n with
  | zero => rfl
  | succ n ih => rw [List.range_succ]; simp [isFilePrio, ih]

theorem pollCalls_no_start (n : Nat) (s : String) :
    BCall.start s ∉ (List.range n).flatMap fun _ => [BCall.sleep 100, BCall.info] := by
  simp [List.mem_flatMap]

/-! ### Claim C7. -/

/-- C7: the add request always carries `stopped=true` (regardless of the
caller's paused choice), and a start request appears in the trace only
when the caller's paused flag is false. -/
theorem add_stopped_and_start_only_if_not_paused
    (req : AddTorrent) (data : AddData) (backend : Backend) :
    (postAdd req data backend).2.head?
      = some (BCall.add req.hash data.savePath true data.sequential
          data.firstLastPiecePrio data.contentLayout)
    ∧ ∀ s, BCall.start s ∈ (postAdd req data backend).2 →
        data.paused = false := by
  constructor
  · by_cases ha : backend.addOk
    · by_cases h0 : (pollGo backend.polls req.metaHash 0 10).2.2 = 0
      · simp [postAdd, ha, h0]
      · obtain ⟨t, ht⟩ := prioStage_suffix req data backend
          (BCall.add req.hash data.savePath true data.sequential
              data.firstLastPiecePrio data.contentLayout ::
            ((List.range (pollGo backend.polls req.metaHash 0 10).2.1).flatMap
              fun _ => [BCall.sleep 100, BCall.info]))
        simp [postAdd, ha, h0, ht]
    · simp [postAdd, ha]
  · intro s hs
    by_cases ha : backend.addOk
    · by_cases h0 : (pollGo backend.polls req.metaHash 0 10).2.2 = 0
      · simp only [postAdd, ha, if_true, h0, if_pos] at hs
        rcases List.mem_cons.mp hs with hc | hc
        · cases hc
        · exact absurd hc (pollCalls_no_start _ s)
      · simp only [postAdd, ha, if_true, if_neg h0] at hs
        rcases prioStage_start_mem req data backend _ s hs with hm | hp
        · rcases List.mem_cons.mp hm with hc | hc
          · cases hc
          · exact absurd hc (pollCalls_no_start _ s)
        · exact hp
    · simp only [postAdd, ha] at hs
      simp at hs

def witnessReq : AddTorrent := ⟨"http://x/file.torrent", "m", [["a"], ["b"], ["c"]]⟩

def witnessBackend : Backend := ⟨true, fun _ => some ["m"], true, true⟩

theorem add_stopped_and_start_only_if_not_paused_witness :
    (postAdd witnessReq ⟨"/dl", false, false, "Original", true, ["a"]⟩
        witnessBackend).2.head?
      = some (BCall.add "http://x/file.torrent" "/dl" true false false "Original")
    ∧ (⟨"/dl", false, false, "Original", false, ["a", "b", "c"]⟩ : AddData).paused
        = false :=
  ⟨(add_stopped_and_start_only_if_not_paused witnessReq
      ⟨"/dl", false, false, "Original", true, ["a"]⟩ witnessBackend).1,
   (add_stopped_and_start_only_if_not_paused witnessReq
      ⟨"/dl", false, false, "Original", false, ["a", "b", "c"]⟩ witnessBackend).2
      "m" (by decide)⟩

/-! ### Claim C3. -/

/-- C3: when the selection is a strict nonempty subset of the (distinct)
file paths, the workflow issues exactly one `filePrio` call, with
priority 0, whose index set has exactly N−k members and consists of
exactly the zero-based indices of the unselected paths. -/
theorem filePrio_complement_of_strict_subset
    (req : AddTorrent) (data : AddData) (backend : Backend)
    (hadd : backend.addOk = true)
    (hreg : (pollGo backend.polls req.metaHash 0 10).2.2 ≠ 0)
    (hjnd : (req.files.map (String.intercalate "/")).Nodup)
    (hsnd : data.selectedFiles.Nodup)
    (hsub : ∀ s ∈ data.selectedFiles,
      s ∈ req.files.map (String.intercalate "/"))
    (_hk : 0 < data.selectedFiles.length)
    (hN : data.selectedFiles.length < req.files.length) :
    (postAdd req data backend).2.filter isFilePrio
        = [BCall.filePrio req.metaHash 0
            (excludedIds (req.files.map (String.intercalate "/"))
              data.selectedFiles)]
      ∧ (excludedIds (req.files.map (String.intercalate "/"))
          data.selectedFiles).length
          = req.files.length - data.selectedFiles.length
      ∧ (∀ j ∈ excludedIds (req.files.map (String.intercalate "/"))
            data.selectedFiles,
          ∀ (hj : j < (req.files.map (String.intercalate "/")).length),
            (req.files.map (String.intercalate "/")).get ⟨j, hj⟩
              ∉ data.selectedFiles)
      ∧ ∀ (j : Nat) (hj : j < (req.files.map (String.intercalate "/")).length),
          (req.files.map (String.intercalate "/")).get ⟨j, hj⟩
              ∉ data.selectedFiles →
          j ∈ excludedIds (req.files.map (String.intercalate "/"))
            data.selectedFiles := by
  have hlen : (excludedIds (req.files.map (String.intercalate "/"))
      data.selectedFiles).length
      = req.files.length - data.selectedFiles.length := by
    rw [excludedIds_length _ _ hjnd hsnd hsub, List.length_map]
  have hids : excludedIds (req.files.map (String.intercalate "/"))
      data.selectedFiles ≠ [] := by
    intro he
    rw [he] at hlen
    simp at hlen
    omega
  refine ⟨?_, hlen, ?_, ?_⟩
  · simp only [postAdd, hadd, if_true, if_neg hreg]
    rw [prioStage_filter_subset req data backend _ hN hids]
    simp [isFilePrio, pollCalls_filter_filePrio]
  · intro j hj hjlt
    obtain ⟨_, hg⟩ := (excludedIds_mem _ _ j).mp hj
    exact hg
  · intro j hj hg
    exact (excludedIds_mem _ _ j).mpr ⟨hj, hg⟩

theorem filePrio_complement_of_strict_subset_witness :
    (postAdd witnessReq ⟨"/dl", false, false, "Original", true, ["b"]⟩
        witnessBackend).2.filter isFilePrio
      = [BCall.filePrio "m" 0 (excludedIds
          (witnessReq.files.map (String.intercalate "/")) ["b"])]
    ∧ (excludedIds (witnessReq.files.map (String.intercalate "/"))
        ["b"]).length = witnessReq.files.length - 1
    ∧ (∀ j ∈ excludedIds (witnessReq.files.map (String.intercalate "/")) ["b"],
        ∀ (hj : j < (witnessReq.files.map (String.intercalate "/")).length),
          (witnessReq.files.map (String.intercalate "/")).get ⟨j, hj⟩ ∉ ["b"])
    ∧ ∀ (j : Nat)
        (hj : j < (witnessReq.files.map (String.intercalate "/")).length),
        (witnessReq.files.map (String.intercalate "/")).get ⟨j, hj⟩ ∉ ["b"] →
        j ∈ excludedIds (witnessReq.files.map (String.intercalate "/")) ["b"] :=
  filePrio_complement_of_strict_subset witnessReq
    ⟨"/dl", false, false, "Original", true, ["b"]⟩ witnessBackend
    rfl (by decide) (by decide) (by decide) (by decide) (by decide) (by decide)

/-! ### Claim C4. -/

/-- C4 counterexample: an empty selection is not treated as "select all".
With two files and `selectedFiles = []` the workflow issues a
priority-0 `filePrio` for every index, marking the whole torrent
do-not-download, where the claim asserts no `filePrio` call at all. -/
theorem empty_selection_filePrio_cex :
    (postAdd ⟨"u", "m", [["a"], ["b"]]⟩
        ⟨"/dl", false, false, "Original", true, []⟩
        ⟨true, fun _ => some ["m"], true, true⟩).2.filter isFilePrio
      = [BCall.filePrio "m" 0 [0, 1]]
    ∧ (postAdd ⟨"u", "m", [["a"], ["b"]]⟩
        ⟨"/dl", false, false, "Original", true, []⟩
        ⟨true, fun _ => some ["m"], true, true⟩).2.filter isFilePrio ≠ [] := by
  constructor
  · rfl
  · intro h
    simp [show (postAdd ⟨"u", "m", [["a"], ["b"]]⟩
        ⟨"/dl", false, false, "Original", true, []⟩
        ⟨true, fun _ => some ["m"], true, true⟩).2.filter isFilePrio
      = [BCall.filePrio "m" 0 [0, 1]] from rfl] at h

/-- With an empty selection every index is excluded. -/
theorem excludeLoop_nil_sel : ∀ (l : List String) (i : Nat),
    excludeLoop [] l i = List.range' i l.length := by
  intro l
  induction l with
  | nil => intro i; rfl
  | cons f rest ih =>
      intro i
      simp [excludeLoop, ih, List.range'_succ]

/-- C4 (amended): when the selection equals the full (joined) file list no
`filePrio` call is issued, because the guard compares list lengths; but an
empty selection is not interpreted as "all": with a nonempty file list it
issues one priority-0 `filePrio` covering every file index. -/
theorem no_filePrio_iff_selection_full
    (req : AddTorrent) (data : AddData) (backend : Backend) :
    (data.selectedFiles = req.files.map (String.intercalate "/") →
      (postAdd req data backend).2.filter isFilePrio = [])
    ∧ (data.selectedFiles = [] → req.files ≠ [] → backend.addOk = true →
        (pollGo backend.polls req.metaHash 0 10).2.2 ≠ 0 →
        (postAdd req data backend).2.filter isFilePrio
          = [BCall.filePrio req.metaHash 0 (List.range req.files.length)]) := by
  constructor
  · intro hfull
    have hge : ¬ data.selectedFiles.length < req.files.length := by
      rw [hfull, List.length_map]
      omega
    by_cases ha : backend.addOk
    · by_cases h0 : (pollGo backend.polls req.metaHash 0 10).2.2 = 0
      · simp [postAdd, ha, h0, isFilePrio, pollCalls_filter_filePrio]
      · simp only [postAdd, ha, if_true, if_neg h0]
        rw [prioStage_filter_skip req data backend _ hge]
        simp [isFilePrio, pollCalls_filter_filePrio]
    · simp [postAdd, ha, isFilePrio]
  · intro hempty hne hadd hreg
    have hlt : data.selectedFiles.length < req.files.length := by
      rw [hempty]
      simp [List.length_pos.mpr hne]
    have hids : excludedIds (req.files.map (String.intercalate "/"))
        data.selectedFiles = List.range req.files.length := by
      rw [hempty, excludedIds, excludeLoop_nil_sel, List.length_map,
        List.range_eq_range']
    have hne' : excludedIds (req.files.map (String.intercalate "/"))
        data.selectedFiles ≠ [] := by
      rw [hids]
      simp [List.range_eq_nil, hne]
    simp only [postAdd, hadd, if_true, if_neg hreg]
    rw [prioStage_filter_subset req data backend _ hlt hne', hids]
    simp [isFilePrio, pollCalls_filter_filePrio]

theorem no_filePrio_iff_selection_full_witness :
    ((postAdd witnessReq ⟨"/dl", false, false, "Original", true, ["a", "b", "c"]⟩
        witnessBackend).2.filter isFilePrio = [])
    ∧ (postAdd witnessReq ⟨"/dl", false, false, "Original", true, []⟩
        witnessBackend).2.filter isFilePrio
        = [BCall.filePrio "m" 0 (List.range witnessReq.files.length)] :=
  ⟨(no_filePrio_iff_selection_full witnessReq
      ⟨"/dl", false, false, "Original", true, ["a", "b", "c"]⟩
      witnessBackend).1 (by decide),
   (no_filePrio_iff_selection_full witnessReq
      ⟨"/dl", false, false, "Original", true, []⟩ witnessBackend).2
      rfl (by decide) rfl (by decide)⟩

/-! ### Claim C5. -/

/-- C5: the registration wait performs at most 10 fetches, succeeds at the
first attempt whose listed entry hash equals the computed hash (after
exactly that many fetches), and when no attempt within the 10-attempt
budget matches, the loop exhausts its counter and the workflow fails
with the not-found error. -/
theorem awaitRegistration_bounded
    (req : AddTorrent) (data : AddData) (backend : Backend) :
    (pollGo backend.polls req.metaHash 0 10).2.1 ≤ 10
    ∧ (∀ j, j < 10 →
        (∀ k, k < j → pollMatches (backend.polls k) req.metaHash = false) →
        pollMatches (backend.polls j) req.metaHash = true →
        pollGo backend.polls req.metaHash 0 10 = (true, j + 1, 10 - j))
    ∧ ((∀ k, k < 10 → pollMatches (backend.polls k) req.metaHash = false) →
        backend.addOk = true →
        pollGo backend.polls req.metaHash 0 10 = (false, 10, 0)
        ∧ (postAdd req data backend).1 = AddOutcome.notFound) := by
  refine ⟨pollGo_fetches_le backend.polls req.metaHash 10 0, ?_, ?_⟩
  · intro j hj hbefore hmatch
    exact pollGo_first_match backend.polls req.metaHash 10 0 j hj
      (fun k hk => by simpa using hbefore k hk) (by simpa using hmatch)
  · intro hnone hadd
    have hloop := pollGo_no_match backend.polls req.metaHash 10 0 (by omega)
      (fun k hk => by simpa using hnone k hk)
    refine ⟨hloop, ?_⟩
    simp [postAdd, hadd, hloop]

theorem awaitRegistration_bounded_witness :
    pollGo (fun j => if j = 2 then some ["m"] else some []) "m" 0 10
      = (true, 3, 8)
    ∧ (postAdd witnessReq ⟨"/dl", false, false, "Original", true, ["a"]⟩
        ⟨true, fun _ => some [], true, true⟩).1 = AddOutcome.notFound :=
  ⟨(awaitRegistration_bounded witnessReq
      ⟨"/dl", false, false, "Original", true, ["a"]⟩
      ⟨true, fun j => if j = 2 then some ["m"] else some [], true, true⟩).2.1
      2 (by omega) (by decide) (by decide),
   ((awaitRegistration_bounded witnessReq
      ⟨"/dl", false, false, "Original", true, ["a"]⟩
      ⟨true, fun _ => some [], true, true⟩).2.2 (by decide) rfl).2⟩

/-! ### The bencode codec.

Modelled from the spec: the codec itself is the `bencode` npm dependency,
not part of the repository sources, so it is embedded from §4.1 of the
spec.  Values are integers (`i<digits>e`, negative supported, no leading
zeros), byte strings (`<len>:<bytes>`), lists (`l...e`) and dictionaries
(`d...e`, byte-string keys, entry order preserved by the decoder);
re-encoding is canonical: dictionary keys are emitted in byte-wise sorted
order regardless of stored order. -/

inductive Bencode where
  | int (i : Int)
  | str (s : List Nat)
  | list (xs : List Bencode)
  | dict (es : List (List Nat × Bencode))

/-- Decimal ASCII digits of a natural number (canonical: no leading
zeros, and `0` is `"0"`). -/
def encNat (n : Nat) : List Nat :=
  if n = 0 then [48] else (Nat.digits 10 n).reverse.map (fun d => d + 48)

/-- Decimal ASCII rendering of an integer, with a leading minus sign for
negative values. -/
def encInt (i : Int) : List Nat :=
  if i < 0 then 45 :: encNat i.natAbs else encNat i.toNat

/-- Byte-wise lexicographic strict order on byte strings (a proper prefix
precedes its extensions). -/
def lexLt : List Nat → List Nat → Bool
  | [], [] => false
  | [], _ :: _ => true
  | _ :: _, [] => false
  | a :: as, b :: bs => if a < b then true else if b < a then false else lexLt as bs

/-- Stable insertion into a key-sorted list of (key, encoded value) pairs. -/
def insKV (p : List Nat × List Nat) :
    List (List Nat × List Nat) → List (List Nat × List Nat)
  | [] => [p]
  | q :: qs => if lexLt p.1 q.1 then p :: q :: qs else q :: insKV p qs

/-- Stable insertion sort of dictionary entries by key. -/
def sortKVs : List (List Nat × List Nat) → List (List Nat × List Nat)
  | [] => []
  | p :: ps => insKV p (sortKVs ps)

/-- Emit the (already individually encoded) dictionary entries. -/
def concatKV : List (List Nat × List Nat) → List Nat
  | [] => []
  | (k, ev) :: ps => encNat k.length ++ 58 :: (k ++ ev) ++ concatKV ps

mutual

/-- The canonical encoder (`bencode.encode`): dictionary keys are sorted
byte-wise before emission. -/
def encB : Bencode → List Nat
  | Bencode.int i => 105 :: (encInt i ++ [101])
  | Bencode.str s => encNat s.length ++ 58 :: s
  | Bencode.list xs => 108 :: (encBList xs ++ [101])
  | Bencode.dict es => 100 :: (concatKV (sortKVs (encBEntries es)) ++ [101])

def encBList : List Bencode → List Nat
  | [] => []
  | x :: xs => encB x ++ encBList xs

def encBEntries : List (List Nat × Bencode) → List (List Nat × List Nat)
  | [] => []
  | (k, v) :: es => (k, encB v) :: encBEntries es

end

mutual

/-- The order-preserving re-encoding: identical to `encB` except that
dictionary entries are emitted in stored order.  It characterises the
exact bytes a decoded value came from. -/
def encR : Bencode → List Nat
  | Bencode.int i => 105 :: (encInt i ++ [101])
  | Bencode.str s => encNat s.length ++ 58 :: s
  | Bencode.list xs => 108 :: (encRList xs ++ [101])
  | Bencode.dict es => 100 :: (encREntries es ++ [101])

def encRList : List Bencode → List Nat
  | [] => []
  | x :: xs => encR x ++ encRList xs

def encREntries : List (List Nat × Bencode) → List Nat
  | [] => []
  | (k, v) :: es => encNat k.length ++ 58 :: (k ++ encR v) ++ encREntries es

end

/-- Adjacent dictionary keys strictly increase byte-wise. -/
def keysSorted : List (List Nat × Bencode) → Bool
  | [] => true
  | [_] => true
  | (k1, _) :: (k2, v2) :: es => lexLt k1 k2 && keysSorted ((k2, v2) :: es)

mutual

/-- All dictionaries of the value (recursively) have strictly sorted keys:
the value is in the canonical form producers conventionally emit. -/
def sortedB : Bencode → Bool
  | Bencode.int _ => true
  | Bencode.str _ => true
  | Bencode.list xs => sortedBList xs
  | Bencode.dict es => keysSorted es && sortedBEntries es

def sortedBList : List Bencode → Bool
  | [] => true
  | x :: xs => sortedB x && sortedBList xs

def sortedBEntries : List (List Nat × Bencode) → Bool
  | [] => true
  | (_, v) :: es => sortedB v && sortedBEntries es

end

/-! ### The bencode decoder (recursive descent, fuel-bounded).

The mutual recursion over values / list items / dictionary pairs is
bounded by a fuel parameter; `decode` supplies `length + 1` fuel, enough
for any input since every recursion level consumes at least one byte. -/

def isDigitB (c : Nat) : Bool := 48 ≤ c && c ≤ 57

/-- Numeric value of a big-endian ASCII digit string. -/
def digitsVal (ds : List Nat) : Nat :=
  Nat.ofDigits 10 (ds.reverse.map fun d => d - 48)

/-- Read a decimal number: a nonempty digit prefix with no leading zero
(`0` itself excepted). -/
def decNat (b : List Nat) : Option (Nat × List Nat) :=
  match b.takeWhile isDigitB with
  | [] => none
  | d :: tail =>
      if d = 48 ∧ tail ≠ [] then none
      else some (digitsVal (d :: tail), b.dropWhile isDigitB)

/-- Read a byte string `<len>:<bytes>`; fails on truncated input. -/
def decStrRaw (b : List Nat) : Option (List Nat × List Nat) :=
  match decNat b with
  | none => none
  | some (len, r) =>
      match r with
      | [] => none
      | c :: r2 =>
          if c = 58 ∧ len ≤ r2.length then some (r2.take len, r2.drop len)
          else none

/-- Read the integer body after the leading `i`, up to and including the
closing `e`; `-0` and leading zeros are rejected. -/
def decIntBody (neg : Bool) (b : List Nat) : Option (Bencode × List Nat) :=
  match decNat b with
  | none => none
  | some (n, r2) =>
      if neg ∧ n = 0 then none
      else
        match r2 with
        | [] => none
        | c :: r3 =>
            if c = 101 then
              some (Bencode.int (if neg then -(n : Int) else (n : Int)), r3)
            else none

def decIntAfter (b : List Nat) : Option (Bencode × List Nat) :=
  match b with
  | [] => none
  | c :: r1 => if c = 45 then decIntBody true r1 else decIntBody false b

mutual

def decV : Nat → List Nat → Option (Bencode × List Nat)
  | 0, _ => none
  | fuel + 1, b =>
      match b with
      | [] => none
      | c :: rest =>
          if c = 105 then decIntAfter rest
          else if c = 108 then
            match decItems fuel rest with
            | some (xs, r) => some (Bencode.list xs, r)
            | none => none
          else if c = 100 then
            match decPairs fuel rest with
            | some (es, r) => some (Bencode.dict es, r)
            | none => none
          else
            match decStrRaw (c :: rest) with
            | some (s, r) => some (Bencode.str s, r)
            | none => none

def decItems : Nat → List Nat → Option (List Bencode × List Nat)
  | 0, _ => none
  | fuel + 1, b =>
      match b with
      | [] => none
      | c :: rest =>
          if c = 101 then some ([], rest)
          else
            match decV fuel (c :: rest) with
            | some (v, r) =>
                match decItems fuel r with
                | some (vs, r2) => some (v :: vs, r2)
                | none => none
            | none => none

def decPairs : Nat → List Nat → Option (List (List Nat × Bencode) × List Nat)
  | 0, _ => none
  | fuel + 1, b =>
      match b with
      | [] => none
      | c :: rest =>
          if c = 101 then some ([], rest)
          else
            match decStrRaw (c :: rest) with
            | some (k, r) =>
                match decV fuel r with
                | some (v, r2) =>
                    match decPairs fuel r2 with
                    | some (es, r3) => some ((k, v) :: es, r3)
                    | none => none
                | none => none
            | none => none

end

/-- `decode(bytes)`: parse one value, also returning the unconsumed
suffix. -/
def decode (b : List Nat) : Option (Bencode × List Nat) :=
  decV (b.length + 1) b

/-! ### Digit-string round trip. -/

theorem ofDigits_eq_zero (L : List Nat) (h : Nat.ofDigits 10 L = 0) :
    ∀ d ∈ L, d = 0 := by
  induction L with
  | nil => simp
  | cons d t ih =>
      rw [Nat.ofDigits_cons] at h
      have hd : d = 0 := by omega
      have ht : Nat.ofDigits 10 t = 0 := by omega
      intro e he
      rcases List.mem_cons.mp he with rfl | he
      · exact hd
      · exact ih ht e he

theorem encNat_digitsVal (d : Nat) (tail : List Nat)
    (hdig : ∀ x ∈ d :: tail, isDigitB x = true)
    (hcanon : ¬ (d = 48 ∧ tail ≠ [])) :
    encNat (digitsVal (d :: tail)) = d :: tail := by
  have hd48 : 48 ≤ d := by
    have := hdig d (by simp)
    simp [isDigitB] at this
    exact this.1
  by_cases hz : digitsVal (d :: tail) = 0
  · have hall := ofDigits_eq_zero _ hz
    have hd0 : d - 48 = 0 :=
      hall _ (List.mem_map_of_mem _ (by simp))
    have hd : d = 48 := by omega
    have htail : tail = [] := by
      by_contra hne
      exact hcanon ⟨hd, hne⟩
    subst htail
    subst hd
    simp [encNat, hz]
  · have hlt : ∀ l ∈ ((d :: tail).reverse.map fun x => x - 48), l < 10 := by
      intro l hl
      simp only [List.mem_map, List.mem_reverse] at hl
      obtain ⟨x, hx, rfl⟩ := hl
      have := hdig x hx
      simp [isDigitB] at this
      omega
    have hrw : ((d :: tail).reverse.map fun x => x - 48)
        = tail.reverse.map (fun x => x - 48) ++ [d - 48] := by
      simp
    have hlsne : ((d :: tail).reverse.map fun x => x - 48) ≠ [] := by simp
    have hlast : ∀ (h : ((d :: tail).reverse.map fun x => x - 48) ≠ []),
        ((d :: tail).reverse.map fun x => x - 48).getLast h ≠ 0 := by
      intro h
      have : ((d :: tail).reverse.map fun x => x - 48).getLast h = d - 48 := by
        rw [List.getLast_congr _ _ hrw, List.getLast_append_singleton]
      rw [this]
      intro hd0
      have hd : d = 48 := by omega
      have htail : tail = [] := by
        by_contra hne
        exact hcanon ⟨hd, hne⟩
      subst htail
      subst hd
      exact hz (by simp [digitsVal, Nat.ofDigits_cons, Nat.ofDigits_nil])
    have hdg := Nat.digits_ofDigits 10 (by norm_num)
      ((d :: tail).reverse.map fun x => x - 48) hlt hlast
    rw [encNat, if_neg hz, digitsVal, hdg]
    simp only [List.map_reverse, List.reverse_reverse, List.map_map]
    have hfix : ∀ x ∈ d :: tail,
        ((fun y => y + 48) ∘ fun x => x - 48) x = (fun y => y) x := by
      intro x hx
      have := hdig x hx
      simp [isDigitB] at this
      simp
      omega
    rw [List.map_congr_left hfix, List.map_id']

theorem decNat_sound (b : List Nat) (n : Nat) (r : List Nat)
    (h : decNat b = some (n, r)) : encNat n ++ r = b := by
  unfold decNat at h
  cases htw : b.takeWhile isDigitB with
  | nil => rw [htw] at h; cases h
  | cons d tail =>
      rw [htw] at h
      dsimp only at h
      by_cases hc : d = 48 ∧ tail ≠ []
      · rw [if_pos hc] at h; cases h
      · rw [if_neg hc] at h
        have hn : digitsVal (d :: tail) = n := by
          injection h with h1
          exact congrArg Prod.fst h1
        have hr : b.dropWhile isDigitB = r := by
          injection h with h1
          exact congrArg Prod.snd h1
        have hdig : ∀ x ∈ d :: tail, isDigitB x = true := by
          intro x hx
          exact List.mem_takeWhile_imp (htw ▸ hx)
        rw [← hn, ← hr, encNat_digitsVal d tail hdig hc, ← htw,
          List.takeWhile_append_dropWhile]

theorem decStrRaw_sound (b s r : List Nat)
    (h : decStrRaw b = some (s, r)) :
    encNat s.length ++ 58 :: (s ++ r) = b := by
  unfold decStrRaw at h
  cases hdn : decNat b with
  | none => rw [hdn] at h; cases h
  | some p =>
      obtain ⟨len, r1⟩ := p
      rw [hdn] at h
      dsimp only at h
      cases r1 with
      | nil => cases h
      | cons c r2 =>
          dsimp only at h
          by_cases hc : c = 58 ∧ len ≤ r2.length
          · rw [if_pos hc] at h
            obtain ⟨hc58, hlen⟩ := hc
            have hs : r2.take len = s := by
              injection h with h1
              exact congrArg Prod.fst h1
            have hr : r2.drop len = r := by
              injection h with h1
              exact congrArg Prod.snd h1
            have hslen : s.length = len := by
              rw [← hs, List.length_take]
              omega
            have := decNat_sound b len (c :: r2) hdn
            rw [hslen, ← this, hc58]
            rw [← hs, ← hr, List.take_append_drop]
          · rw [if_neg hc] at h; cases h

theorem decIntBody_sound (neg : Bool) (b : List Nat) (v : Bencode)
    (r : List Nat) (h : decIntBody neg b = some (v, r)) :
    ∃ n : Nat, ¬ (neg = true ∧ n = 0)
      ∧ v = Bencode.int (if neg then -(n : Int) else (n : Int))
      ∧ encNat n ++ 101 :: r = b := by
  unfold decIntBody at h
  cases hdn : decNat b with
  | none => rw [hdn] at h; cases h
  | some p =>
      obtain ⟨n, r2⟩ := p
      rw [hdn] at h
      dsimp only at h
      by_cases hneg : neg = true ∧ n = 0
      · rw [if_pos hneg] at h; cases h
      · rw [if_neg hneg] at h
        cases r2 with
        | nil => cases h
        | cons c r3 =>
            dsimp only at h
            by_cases hc : c = 101
            · rw [if_pos hc] at h
              refine ⟨n, hneg, ?_, ?_⟩
              · injection h with h1
                exact (congrArg Prod.fst h1).symm
              · have hr : r3 = r := by
                  injection h with h1
                  exact congrArg Prod.snd h1
                have := decNat_sound b n (c :: r3) hdn
                rw [← this, hc, hr]
            · rw [if_neg hc] at h; cases h

theorem decIntAfter_sound (b : List Nat) (v : Bencode) (r : List Nat)
    (h : decIntAfter b = some (v, r)) :
    ∃ i : Int, v = Bencode.int i ∧ encInt i ++ 101 :: r = b := by
  unfold decIntAfter at h
  cases b with
  | nil => cases h
  | cons c r1 =>
      dsimp only at h
      by_cases hc : c = 45
      · rw [if_pos hc] at h
        obtain ⟨n, hn0, hv, henc⟩ := decIntBody_sound true r1 v r h
        refine ⟨-(n : Int), by simpa using hv, ?_⟩
        have hnpos : 0 < n := by
          rcases Nat.eq_zero_or_pos n with h0 | h0
          · exact absurd ⟨rfl, h0⟩ hn0
          · exact h0
        have hneg : (-(n : Int)) < 0 := by
          simp
          exact_mod_cast hnpos
        rw [encInt, if_pos hneg, hc]
        simp only [Int.natAbs_neg, Int.natAbs_ofNat]
        rw [← henc]
        rfl
      · rw [if_neg hc] at h
        obtain ⟨n, _, hv, henc⟩ := decIntBody_sound false (c :: r1) v r h
        refine ⟨(n : Int), by simpa using hv, ?_⟩
        have hnn : ¬ ((n : Int) < 0) := by
          simp
        rw [encInt, if_neg hnn, Int.toNat_ofNat]
        exact henc

/-! ### Decoder soundness: a successful parse pins down the input bytes
as the order-preserving re-encoding of the value, followed by the
unconsumed suffix. -/

theorem decSound (fuel : Nat) :
    (∀ b v r, decV fuel b = some (v, r) → encR v ++ r = b)
    ∧ (∀ b xs r, decItems fuel b = some (xs, r) → encRList xs ++ 101 :: r = b)
    ∧ (∀ b es r, decPairs fuel b = some (es, r) → encREntries es ++ 101 :: r = b) := by
  induction fuel with
  | zero =>
      refine ⟨?_, ?_, ?_⟩ <;> intro b x r h <;> simp [decV, decItems, decPairs] at h
  | succ fuel ih =>
      obtain ⟨ihV, ihI, ihP⟩ := ih
      refine ⟨?_, ?_, ?_⟩
      · intro b v r h
        cases b with
        | nil => simp [decV] at h
        | cons c rest =>
            unfold decV at h
            dsimp only at h
            by_cases h105 : c = 105
            · rw [if_pos h105] at h
              obtain ⟨i, hv, henc⟩ := decIntAfter_sound rest v r h
              subst hv
              subst h105
              rw [← henc]
              simp [encR]
            · by_cases h108 : c = 108
              · rw [if_neg h105, if_pos h108] at h
                cases hdi : decItems fuel rest with
                | none => rw [hdi] at h; cases h
                | some p =>
                    obtain ⟨xs, r2⟩ := p
                    rw [hdi] at h
                    dsimp only at h
                    injection h with h1
                    injection h1 with h2 h3
                    subst h2
                    subst h3
                    subst h108
                    rw [← ihI rest xs r2 hdi]
                    simp [encR]
              · by_cases h100 : c = 100
                · rw [if_neg h105, if_neg h108, if_pos h100] at h
                  cases hdp : decPairs fuel rest with
                  | none => rw [hdp] at h; cases h
                  | some p =>
                      obtain ⟨es, r2⟩ := p
                      rw [hdp] at h
                      dsimp only at h
                      injection h with h1
                      injection h1 with h2 h3
                      subst h2
                      subst h3
                      subst h100
                      rw [← ihP rest es r2 hdp]
                      simp [encR]
                · rw [if_neg h105, if_neg h108, if_neg h100] at h
                  cases hds : decStrRaw (c :: rest) with
                  | none => rw [hds] at h; cases h
                  | some p =>
                      obtain ⟨s, r2⟩ := p
                      rw [hds] at h
                      dsimp only at h
                      injection h with h1
                      injection h1 with h2 h3
                      subst h2
                      subst h3
                      rw [← decStrRaw_sound (c :: rest) s r2 hds]
                      simp [encR]
      · intro b xs r h
        cases b with
        | nil => simp [decItems] at h
        | cons c rest =>
            unfold decItems at h
            dsimp only at h
            by_cases h101 : c = 101
            · rw [if_pos h101] at h
              injection h with h1
              injection h1 with h2 h3
              subst h2
              subst h3
              subst h101
              simp [encRList]
            · rw [if_neg h101] at h
              cases hdv : decV fuel (c :: rest) with
              | none => rw [hdv] at h; cases h
              | some p =>
                  obtain ⟨v, r1⟩ := p
                  rw [hdv] at h
                  dsimp only at h
                  cases hdi : decItems fuel r1 with
                  | none => rw [hdi] at h; cases h
                  | some q =>
                      obtain ⟨vs, r2⟩ := q
                      rw [hdi] at h
                      dsimp only at h
                      injection h with h1
                      injection h1 with h2 h3
                      subst h2
                      subst h3
                      rw [encRList, ← ihV (c :: rest) v r1 hdv,
                        ← ihI r1 vs r2 hdi]
                      simp
      · intro b es r h
        cases b with
        | nil => simp [decPairs] at h
        | cons c rest =>
            unfold decPairs at h
            dsimp only at h
            by_cases h101 : c = 101
            · rw [if_pos h101] at h
              injection h with h1
              injection h1 with h2 h3
              subst h2
              subst h3
              subst h101
              simp [encREntries]
            · rw [if_neg h101] at h
              cases hds : decStrRaw (c :: rest) with
              | none => rw [hds] at h; cases h
              | some p =>
                  obtain ⟨k, r1⟩ := p
                  rw [hds] at h
                  dsimp only at h
                  cases hdv : decV fuel r1 with
                  | none => rw [hdv] at h; cases h
                  | some q =>
                      obtain ⟨v, r2⟩ := q
                      rw [hdv] at h
                      dsimp only at h
                      cases hdp : decPairs fuel r2 with
                      | none => rw [hdp] at h; cases h
                      | some q2 =>
                          obtain ⟨es2, r3⟩ := q2
                          rw [hdp] at h
                          dsimp only at h
                          injection h with h1
                          injection h1 with h2 h3
                          subst h2
                          subst h3
                          rw [encREntries, ← decStrRaw_sound (c :: rest) k r1 hds,
                            ← ihV r1 v r2 hdv, ← ihP r2 es2 r3 hdp]
                          simp

/-- A successful complete decode means the input was exactly the
order-preserving re-encoding of the decoded value. -/
theorem decode_sound (b : List Nat) (v : Bencode)
    (h : decode b = some (v, [])) : encR v = b := by
  have := (decSound (b.length + 1)).1 b v [] h
  simpa using this

/-! ### On canonically sorted values the two encoders agree. -/

def keysSortedKV : List (List Nat × List Nat) → Bool
  | [] => true
  | [_] => true
  | (k1, _) :: (k2, v2) :: ps => lexLt k1 k2 && keysSortedKV ((k2, v2) :: ps)

theorem keysSortedKV_encBEntries (es : List (List Nat × Bencode)) :
    keysSortedKV (encBEntries es) = keysSorted es := by
  induction es with
  | nil => rfl
  | cons hd tl ih =>
      obtain ⟨k1, v1⟩ := hd
      cases tl with
      | nil => rfl
      | cons hd2 tl2 =>
          obtain ⟨k2, v2⟩ := hd2
          have ih2 := ih
          simp only [encBEntries] at ih2
          simp only [encBEntries, keysSortedKV, keysSorted]
          rw [ih2]

theorem sortKVs_of_sorted (ps : List (List Nat × List Nat))
    (h : keysSortedKV ps = true) : sortKVs ps = ps := by
  induction ps with
  | nil => rfl
  | cons p ps ih =>
      cases ps with
      | nil => rfl
      | cons q qs =>
          obtain ⟨k1, v1⟩ := p
          obtain ⟨k2, v2⟩ := q
          rw [keysSortedKV, Bool.and_eq_true] at h
          rw [sortKVs, ih h.2, insKV, if_pos h.1]

mutual

theorem encB_eq_encR : ∀ (v : Bencode), sortedB v = true → encB v = encR v
  | Bencode.int _, _ => rfl
  | Bencode.str _, _ => rfl
  | Bencode.list xs, h => by
      rw [encB, encR, encBList_eq_encRList xs (by simpa [sortedB] using h)]
  | Bencode.dict es, h => by
      have h12 : keysSorted es = true ∧ sortedBEntries es = true := by
        simpa [sortedB, Bool.and_eq_true] using h
      rw [encB, encR,
        sortKVs_of_sorted _ (by rw [keysSortedKV_encBEntries]; exact h12.1),
        concatKV_encBEntries es h12.2]

theorem encBList_eq_encRList :
    ∀ (xs : List Bencode), sortedBList xs = true → encBList xs = encRList xs
  | [], _ => rfl
  | x :: xs, h => by
      have h12 : sortedB x = true ∧ sortedBList xs = true := by
        simpa [sortedBList, Bool.and_eq_true] using h
      rw [encBList, encRList, encB_eq_encR x h12.1,
        encBList_eq_encRList xs h12.2]

theorem concatKV_encBEntries :
    ∀ (es : List (List Nat × Bencode)), sortedBEntries es = true →
      concatKV (encBEntries es) = encREntries es
  | [], _ => rfl
  | (k, v) :: es, h => by
      have h12 : sortedB v = true ∧ sortedBEntries es = true := by
        simpa [sortedBEntries, Bool.and_eq_true] using h
      rw [encBEntries, concatKV, encREntries, encB_eq_encR v h12.1,
        concatKV_encBEntries es h12.2]

end

/-! ### Hash computation of `getTorrentMetadata` (`files/route.ts`).

Lines 149-157 and 183-187 of the route compute, from the parsed `info`
object: `v1Hash = sha1(bencode.encode(info)).hex`, `v2Hash = null` unless
`info["meta version"] === 2`, in which case
`sha256(bencode.encode({...info, pieces: Buffer.alloc(0)})).hex`, and the
record's primary `hash` field is set to `v1Hash`.  The SHA-1/SHA-256
digests are abstract byte functions here; hex rendering is explicit. -/

def ascii (s : String) : List Nat := s.data.map Char.toNat

/-- Property lookup on the parsed info dictionary (JS object semantics:
first binding wins). -/
def lookupKV : List (List Nat × Bencode) → List Nat → Option Bencode
  | [], _ => none
  | (k, v) :: es, key => if k = key then some v else lookupKV es key

/-- The object spread `{...info, pieces: Buffer.alloc(0)}`: replace the
property in place when present, else append it. -/
def setKV : List (List Nat × Bencode) → List Nat → Bencode →
    List (List Nat × Bencode)
  | [], key, v => [(key, v)]
  | (k, w) :: es, key, v =>
      if k = key then (k, v) :: es else (k, w) :: setKV es key v

/-- The strict comparison `info["meta version"] !== 2` (negated): only the
integer 2 passes. -/
def isMetaV2 : Option Bencode → Bool
  | some (Bencode.int i) => i == 2
  | _ => false

def hexChars : List Char := "0123456789abcdef".data

/-- Lowercase hexadecimal rendering of a digest, two characters per byte
(`digest("hex")` followed by the no-op `toLowerCase`). -/
def hexStr (bs : List Nat) : List Char :=
  bs.flatMap fun b => [hexChars.getD (b / 16) '0', hexChars.getD (b % 16) '0']

structure HashRec where
  v1Hash : List Char
  v2Hash : Option (List Char)
  hash : List Char

def computeHashes (sha1 sha256 : List Nat → List Nat)
    (info : List (List Nat × Bencode)) : HashRec :=
  { v1Hash := hexStr (sha1 (encB (Bencode.dict info)))
    v2Hash :=
      if isMetaV2 (lookupKV info (ascii "meta version")) then
        some (hexStr (sha256 (encB (Bencode.dict
          (setKV info (ascii "pieces") (Bencode.str []))))))
      else none
    hash := hexStr (sha1 (encB (Bencode.dict info))) }

theorem hexStr_length (bs : List Nat) : (hexStr bs).length = 2 * bs.length := by
  induction bs with
  | nil => rfl
  | cons b rest ih =>
      have hstep : hexStr (b :: rest)
          = [hexChars.getD (b / 16) '0', hexChars.getD (b % 16) '0']
            ++ hexStr rest := by
        simp [hexStr]
      rw [hstep, List.length_append, ih, List.length_cons, List.length_cons,
        List.length_nil, List.length_cons]
      omega

theorem hexStr_mem (bs : List Nat) : ∀ c ∈ hexStr bs, c ∈ hexChars := by
  intro c hc
  simp only [hexStr, List.mem_flatMap] at hc
  obtain ⟨b, _, hc⟩ := hc
  have hgetD : ∀ i : Nat, hexChars.getD i '0' ∈ hexChars := by
    intro i
    by_cases hi : i < hexChars.length
    · rw [List.getD_eq_getElem hexChars '0' hi]
      exact List.getElem_mem hi
    · rw [List.getD_eq_default hexChars '0' (by omega)]
      decide
  simp only [List.mem_cons, List.not_mem_nil, or_false] at hc
  rcases hc with rfl | rfl <;> exact hgetD _

/-! ### Lookup decomposition and entry encodings. -/

theorem lookupKV_split (es : List (List Nat × Bencode)) (key : List Nat)
    (v : Bencode) (h : lookupKV es key = some v) :
    ∃ es1 es2, es = es1 ++ (key, v) :: es2 := by
  induction es with
  | nil => cases h
  | cons hd tl ih =>
      obtain ⟨k, w⟩ := hd
      by_cases hk : k = key
      · rw [lookupKV, if_pos hk] at h
        injection h with h1
        exact ⟨[], tl, by rw [hk, h1]; rfl⟩
      · rw [lookupKV, if_neg hk] at h
        obtain ⟨es1, es2, hsplit⟩ := ih h
        exact ⟨(k, w) :: es1, es2, by rw [hsplit]; rfl⟩

theorem encREntries_append (es1 es2 : List (List Nat × Bencode)) :
    encREntries (es1 ++ es2) = encREntries es1 ++ encREntries es2 := by
  induction es1 with
  | nil => simp [encREntries]
  | cons hd tl ih =>
      obtain ⟨k, v⟩ := hd
      simp only [List.cons_append]
      rw [encREntries, encREntries, ih]
      simp [List.append_assoc]

theorem sortedBEntries_values (es : List (List Nat × Bencode))
    (h : sortedBEntries es = true) : ∀ kv ∈ es, sortedB kv.2 = true := by
  induction es with
  | nil => simp
  | cons hd tl ih =>
      obtain ⟨k, v⟩ := hd
      rw [sortedBEntries, Bool.and_eq_true] at h
      intro kv hkv
      rcases List.mem_cons.mp hkv with rfl | hkv
      · exact h.1
      · exact ih h.2 kv hkv

/-! ### Claim C1. -/

/-- C1: for every successfully resolved torrent document, the computed
v1Hash is the 40-lowercase-hex-character SHA-1 of the canonical bencode
re-encoding of the parsed info dictionary; and whenever the source
document's dictionary keys are already in canonical sorted order, that
re-encoding byte-matches the info span of the source document, so the
hash equals the reference v1 identifier (SHA-1 of the original info
span). -/
theorem v1Hash_canonical_roundtrip
    (sha1 sha256 : List Nat → List Nat)
    (hlen : ∀ bs, (sha1 bs).length = 20)
    (b : List Nat) (doc infoEs : List (List Nat × Bencode))
    (hdec : decode b = some (Bencode.dict doc, []))
    (hsorted : sortedB (Bencode.dict doc) = true)
    (hinfo : lookupKV doc (ascii "info") = some (Bencode.dict infoEs)) :
    (computeHashes sha1 sha256 infoEs).v1Hash
        = hexStr (sha1 (encB (Bencode.dict infoEs)))
    ∧ (computeHashes sha1 sha256 infoEs).v1Hash.length = 40
    ∧ (∀ c ∈ (computeHashes sha1 sha256 infoEs).v1Hash, c ∈ hexChars)
    ∧ ∃ pre post, b = pre ++ encB (Bencode.dict infoEs) ++ post := by
  refine ⟨rfl, ?_, ?_, ?_⟩
  · show (hexStr (sha1 (encB (Bencode.dict infoEs)))).length = 40
    rw [hexStr_length, hlen]
  · exact hexStr_mem _
  · have hb : encR (Bencode.dict doc) = b := decode_sound b _ hdec
    obtain ⟨es1, es2, hsplit⟩ := lookupKV_split doc (ascii "info") _ hinfo
    have hsortedE : sortedBEntries doc = true :=
      (by simpa [sortedB, Bool.and_eq_true] using hsorted :
        keysSorted doc = true ∧ sortedBEntries doc = true).2
    have hvinfo : sortedB (Bencode.dict infoEs) = true := by
      apply sortedBEntries_values doc hsortedE (ascii "info", Bencode.dict infoEs)
      rw [hsplit]
      simp
    have henc : encB (Bencode.dict infoEs) = encR (Bencode.dict infoEs) :=
      encB_eq_encR _ hvinfo
    refine ⟨100 :: encREntries es1
        ++ encNat (ascii "info").length ++ 58 :: ascii "info",
      encREntries es2 ++ [101], ?_⟩
    rw [← hb, hsplit, henc]
    rw [encR, encREntries_append, encREntries]
    simp [List.append_assoc]

theorem v1Hash_canonical_roundtrip_witness :
    (computeHashes (fun _ => List.replicate 20 0) (fun _ => List.replicate 32 0)
        []).v1Hash
        = hexStr ((fun _ : List Nat => List.replicate 20 0)
            (encB (Bencode.dict [])))
    ∧ (computeHashes (fun _ => List.replicate 20 0)
        (fun _ => List.replicate 32 0) []).v1Hash.length = 40
    ∧ (∀ c ∈ (computeHashes (fun _ => List.replicate 20 0)
        (fun _ => List.replicate 32 0) []).v1Hash, c ∈ hexChars)
    ∧ ∃ pre post, [100, 52, 58, 105, 110, 102, 111, 100, 101, 101]
        = pre ++ encB (Bencode.dict []) ++ post :=
  v1Hash_canonical_roundtrip (fun _ => List.replicate 20 0)
    (fun _ => List.replicate 32 0) (fun _ => by simp)
    [100, 52, 58, 105, 110, 102, 111, 100, 101, 101]
    [(ascii "info", Bencode.dict [])] [] rfl rfl rfl

/-! ### Claim C6. -/

theorem isMetaV2_iff (o : Option Bencode) :
    isMetaV2 o = true ↔ o = some (Bencode.int 2) := by
  cases o with
  | none => simp [isMetaV2]
  | some v =>
      cases v <;> simp [isMetaV2]

/-- C6: the record's v2Hash is non-null exactly when
`info["meta version"]` is the integer 2, and in that case it is the
64-lowercase-hex-character SHA-256 of the canonical bencode encoding of
the info dictionary with its `pieces` field replaced by the empty byte
string (the spread inserts the empty field even when `pieces` was
absent). -/
theorem v2Hash_spec (sha1 sha256 : List Nat → List Nat)
    (info : List (List Nat × Bencode))
    (hlen : ∀ bs, (sha256 bs).length = 32) :
    ((computeHashes sha1 sha256 info).v2Hash ≠ none
      ↔ lookupKV info (ascii "meta version") = some (Bencode.int 2))
    ∧ ∀ h, (computeHashes sha1 sha256 info).v2Hash = some h →
        h = hexStr (sha256 (encB (Bencode.dict
            (setKV info (ascii "pieces") (Bencode.str [])))))
        ∧ h.length = 64
        ∧ ∀ c ∈ h, c ∈ hexChars := by
  by_cases hm : isMetaV2 (lookupKV info (ascii "meta version")) = true
  · constructor
    · rw [← isMetaV2_iff]
      simp [computeHashes, hm]
    · intro h hsome
      simp only [computeHashes, hm, if_true] at hsome
      injection hsome with h1
      refine ⟨h1.symm, ?_, ?_⟩
      · rw [← h1, hexStr_length, hlen]
      · rw [← h1]
        exact hexStr_mem _
  · constructor
    · rw [← isMetaV2_iff]
      simp [computeHashes, hm]
    · intro h hsome
      simp [computeHashes, hm] at hsome

theorem v2Hash_spec_witness :
    ((computeHashes (fun _ => List.replicate 20 0)
        (fun _ => List.replicate 32 0)
        [(ascii "meta version", Bencode.int 2)]).v2Hash ≠ none
      ↔ lookupKV [(ascii "meta version", Bencode.int 2)]
          (ascii "meta version") = some (Bencode.int 2))
    ∧ ∀ h, (computeHashes (fun _ => List.replicate 20 0)
        (fun _ => List.replicate 32 0)
        [(ascii "meta version", Bencode.int 2)]).v2Hash = some h →
        h = hexStr ((fun _ : List Nat => List.replicate 32 0)
            (encB (Bencode.dict (setKV [(ascii "meta version", Bencode.int 2)]
              (ascii "pieces") (Bencode.str [])))))
        ∧ h.length = 64
        ∧ ∀ c ∈ h, c ∈ hexChars :=
  v2Hash_spec (fun _ => List.replicate 20 0) (fun _ => List.replicate 32 0)
    [(ascii "meta version", Bencode.int 2)] (fun _ => by simp)

/-! ### Claim C10. -/

theorem startStage_fst_ne_notFound (req : AddTorrent) (data : AddData)
    (backend : Backend) (calls : List BCall) :
    (startStage req data backend calls).1 ≠ AddOutcome.notFound := by
  unfold startStage
  split
  · simp
  · split <;> simp

theorem prioStage_fst_ne_notFound (req : AddTorrent) (data : AddData)
    (backend : Backend) (calls : List BCall) :
    (prioStage req data backend calls).1 ≠ AddOutcome.notFound := by
  unfold prioStage
  split
  · split
    · simp
    · split
      · exact startStage_fst_ne_notFound req data backend _
      · simp
  · exact startStage_fst_ne_notFound req data backend calls

/-- C10: the record's primary hash field is always the v1 hash — also for
meta-version-2 torrents carrying a v2Hash — and the registration wait of
the acquisition workflow succeeds or fails according to whether some poll
entry hash within the 10-attempt budget equals exactly this metadata
hash. -/
theorem primary_hash_is_v1 (sha1 sha256 : List Nat → List Nat)
    (info : List (List Nat × Bencode)) :
    (computeHashes sha1 sha256 info).hash
        = (computeHashes sha1 sha256 info).v1Hash
    ∧ ∀ (req : AddTorrent) (data : AddData) (backend : Backend),
        backend.addOk = true →
        ((postAdd req data backend).1 = AddOutcome.notFound
          ↔ ∀ j, j < 10 →
              pollMatches (backend.polls j) req.metaHash = false) := by
  refine ⟨rfl, ?_⟩
  intro req data backend hadd
  constructor
  · intro hnf
    by_contra hex
    push_neg at hex
    obtain ⟨j, hj, hmatch⟩ := hex
    have hmatch' : pollMatches (backend.polls j) req.metaHash = true := by
      simpa using hmatch
    have hexists : ∃ n, n < 10
        ∧ pollMatches (backend.polls n) req.metaHash = true := ⟨j, hj, hmatch'⟩
    have hspec := Nat.find_spec hexists
    have hloop := pollGo_first_match backend.polls req.metaHash 10 0
      (Nat.find hexists) hspec.1
      (fun k hk => by
        have := Nat.find_min hexists hk
        push_neg at this
        rcases Nat.lt_or_ge k 10 with hk10 | hk10
        · have := this hk10
          simpa [Nat.zero_add] using Bool.eq_false_iff.mpr
            (by simpa using this)
        · omega)
      (by simpa using hspec.2)
    have hne : (10 : Nat) - Nat.find hexists ≠ 0 := by
      have := hspec.1
      omega
    rw [postAdd] at hnf
    simp only [hadd, if_true, hloop] at hnf
    rw [if_neg (by simpa using hne)] at hnf
    exact prioStage_fst_ne_notFound req data backend _ hnf
  · intro hnone
    have hloop := pollGo_no_match backend.polls req.metaHash 10 0 (by omega)
      (fun k hk => by simpa using hnone k hk)
    simp [postAdd, hadd, hloop]

theorem primary_hash_is_v1_witness :
    (computeHashes (fun _ => List.replicate 20 0) (fun _ => List.replicate 32 0)
        [(ascii "meta version", Bencode.int 2)]).hash
      = (computeHashes (fun _ => List.replicate 20 0)
          (fun _ => List.replicate 32 0)
          [(ascii "meta version", Bencode.int 2)]).v1Hash
    ∧ (postAdd witnessReq ⟨"/dl", false, false, "Original", true, ["a"]⟩
        ⟨true, fun _ => some ["other"], true, true⟩).1 = AddOutcome.notFound :=
  ⟨(primary_hash_is_v1 (fun _ => List.replicate 20 0)
      (fun _ => List.replicate 32 0) [(ascii "meta version", Bencode.int 2)]).1,
   ((primary_hash_is_v1 (fun _ => List.replicate 20 0)
      (fun _ => List.replicate 32 0)
      [(ascii "meta version", Bencode.int 2)]).2 witnessReq
      ⟨"/dl", false, false, "Original", true, ["a"]⟩
      ⟨true, fun _ => some ["other"], true, true⟩ rfl).mpr (by decide)⟩

/-! ### Magnet resolution control flow (`files/route.ts`, lines 104-122
and 215-231).

For a magnet source, `getTorrentMetadata` races the WebTorrent add
callback against a hard 30-second timer and the client error event.  The
timer destroys the client and REJECTS the promise with
"Magnet resolution timeout"; the error event likewise rejects; the outer
catch destroys the client and rethrows, and the GET handler converts any
thrown error into a 502 JSON error response.  The input below records
which of the three events won the race; `resolved none` models a torrent
object without an `info` dictionary. -/

def magnetTimeoutMs : Nat := 30000

inductive MagnetOutcome where
  | resolved (info : Option (List (List Nat × Bencode)))
  | timedOut
  | clientError

inductive MetaErr where
  | magnetTimeout
  | clientErr
  | missingInfo
deriving Repr, DecidableEq

/-- The promise around `client.add`: the add callback resolves, the
timeout and the error event reject. -/
def magnetPromise : MagnetOutcome →
    Except MetaErr (Option (List (List Nat × Bencode)))
  | MagnetOutcome.resolved info => Except.ok info
  | MagnetOutcome.timedOut => Except.error MetaErr.magnetTimeout
  | MagnetOutcome.clientError => Except.error MetaErr.clientErr

/-- The magnet path of `getTorrentMetadata`: await the promise, require
the `info` dictionary, compute the hash record; any rejection is
rethrown by the catch block (after destroying the client). -/
def getTorrentMetadataMagnet (sha1 sha256 : List Nat → List Nat)
    (o : MagnetOutcome) : Except MetaErr HashRec :=
  match magnetPromise o with
  | Except.error e => Except.error e
  | Except.ok none => Except.error MetaErr.missingInfo
  | Except.ok (some info) => Except.ok (computeHashes sha1 sha256 info)

/-- The GET handler status: 200 with the metadata on success, 502 with an
error message on any thrown error. -/
def metadataRouteStatus (sha1 sha256 : List Nat → List Nat)
    (o : MagnetOutcome) : Nat :=
  match getTorrentMetadataMagnet sha1 sha256 o with
  | Except.ok _ => 200
  | Except.error _ => 502

/-- C2 counterexample: a magnet resolution that times out does not
produce a degraded record — the resolver rejects with the timeout error
and the route turns the failure into a hard 502 error response, where the
claim asserts an ok record with an empty file list and no error. -/
theorem magnet_timeout_cex :
    getTorrentMetadataMagnet (fun _ => List.replicate 20 0)
        (fun _ => List.replicate 32 0) MagnetOutcome.timedOut
        = Except.error MetaErr.magnetTimeout
    ∧ metadataRouteStatus (fun _ => List.replicate 20 0)
        (fun _ => List.replicate 32 0) MagnetOutcome.timedOut = 502 :=
  ⟨rfl, rfl⟩

/-- C2 (amended): the resolver applies a hard 30000 ms timeout; on
timeout or protocol error it rejects (after destroying the client) and
the route handler propagates the failure as a 502 error response — no
degraded record containing only identifier, display name and empty file
list is produced; only a resolution that yields an info dictionary
returns a record. -/
theorem magnet_failure_propagates (sha1 sha256 : List Nat → List Nat) :
    magnetTimeoutMs = 30000
    ∧ getTorrentMetadataMagnet sha1 sha256 MagnetOutcome.timedOut
        = Except.error MetaErr.magnetTimeout
    ∧ getTorrentMetadataMagnet sha1 sha256 MagnetOutcome.clientError
        = Except.error MetaErr.clientErr
    ∧ metadataRouteStatus sha1 sha256 MagnetOutcome.timedOut = 502
    ∧ metadataRouteStatus sha1 sha256 MagnetOutcome.clientError = 502
    ∧ ∀ info, getTorrentMetadataMagnet sha1 sha256
        (MagnetOutcome.resolved (some info))
        = Except.ok (computeHashes sha1 sha256 info) :=
  ⟨rfl, rfl, rfl, rfl, rfl, fun _ => rfl⟩

end TorrentView
